import Mathlib

/-!
Verification development for the Broker publish/subscribe messaging library.

The development shallowly embeds the parts of the code base that the checked
properties talk about:

* the typed value model of `libbroker/broker/variant_data.cc` (the view type
  `variant_data`, the owning type `data`, conversion, equality and ordering);
* the topic / filter machinery and the routing, peering and retry behaviour
  described in the specification (the endpoint engine itself is exercised by
  `libbroker/broker/integration.test.cc`);
* the subscriber queue of `src/subscriber.cc` (flare arming discipline);
* the store backend contract exercised by `tests/cpp/backend.cc`;
* `variant_data::parse_shallow` and the Python Zeek event binding of
  `bindings/python/zeek.cpp`.

Machine integers are modelled as `Nat`/`Int`; IEEE-754 binary64 payloads are
modelled by their 64-bit pattern as a `Nat`, with equality and ordering
computed from the pattern exactly as the hardware comparison does.
-/

namespace Broker

/-! ## IEEE-754 binary64 payloads

The C++ code stores `real` payloads as `double` and compares them with the
built-in `==` and `<`. We model a double by its 64-bit pattern and define the
IEEE-754 comparisons arithmetically: NaN compares false to everything, and
otherwise patterns compare through a signed magnitude key (which identifies
positive and negative zero). -/

/-- Whether the 64-bit pattern `b` encodes an IEEE-754 binary64 NaN
(exponent all ones, non-zero mantissa). -/
def realIsNaN (b : Nat) : Bool :=
  (b / 2 ^ 52) % 2 ^ 11 == 2047 && b % 2 ^ 52 != 0

/-- Signed-magnitude key of a (non-NaN) binary64 pattern: order on keys is
exactly the IEEE-754 `<` on the encoded numbers, and `+0.0`, `-0.0` share the
key `0`. -/
def realKey (b : Nat) : Int :=
  if b / 2 ^ 63 == 1 then -((b % 2 ^ 63 : Nat) : Int) else ((b % 2 ^ 63 : Nat) : Int)

/-- IEEE-754 `==` on two binary64 bit patterns. -/
def realEq (a b : Nat) : Bool :=
  !realIsNaN a && !realIsNaN b && realKey a == realKey b

/-- IEEE-754 `<` on two binary64 bit patterns. -/
def realLt (a b : Nat) : Bool :=
  !realIsNaN a && !realIsNaN b && decide (realKey a < realKey b)

/-- The bit pattern of the canonical quiet NaN. -/
def quietNaN : Nat := 0x7FF8000000000000

/-! ## Byte sequences

C++ strings and enum names enter the value model as byte sequences
(`std::string` / `std::string_view`); we model them as `List Nat`.
`bytesLt` is the lexicographic comparison that `std::string_view::operator<`
performs byte by byte. -/

/-- Lexicographic byte-sequence comparison (`std::string_view` order). -/
def bytesLt : List Nat → List Nat → Bool
  | _, [] => false
  | [], _ :: _ => true
  | a :: as, b :: bs =>
    if a < b then true else if b < a then false else bytesLt as bs

/-! ## The tagged value union

`broker::variant_data` (the arena-backed view type) and `broker::data` (the
owning type) are discriminated unions over the same fifteen alternatives, in
this declaration order: none, boolean, count, integer, real, string, address,
subnet, port, timestamp, timespan, enum_value, set, table, vector. Container
payloads are the stored sequences (a `std::set` / `std::map` iterates in
ascending key order; that ordering is a representation invariant, captured by
`wf` below, not by the type). -/

/-- Transport-layer protocol tag of a `port` value. Modelled from the spec:
16-bit port number plus a protocol tag in {tcp, udp, icmp, unknown}
(the `port` class itself is not part of the staged sources). -/
inductive protocol where
  | tcp
  | udp
  | icmp
  | unknown
deriving DecidableEq

/-- Index of a protocol tag, for the natural order on `port` payloads. -/
def protoIdx : protocol → Nat
  | .tcp => 0
  | .udp => 1
  | .icmp => 2
  | .unknown => 3

/-- The view value type `broker::variant_data`: a tagged union whose strings
are byte sequences into the decoded buffer and whose containers are
arena-allocated sequences. Reals carry their binary64 bit pattern. -/
inductive variant_data where
  | none
  | boolean (b : Bool)
  | count (n : Nat)
  | integer (i : Int)
  | real (bits : Nat)
  | string (s : List Nat)
  | address (a : Nat)
  | subnet (a : Nat) (len : Nat)
  | port (num : Nat) (proto : protocol)
  | timestamp (ns : Int)
  | timespan (ns : Int)
  | enum_value (name : List Nat)
  | set (xs : List variant_data)
  | table (xs : List (variant_data × variant_data))
  | vector (xs : List variant_data)

/-- The owning value type `broker::data`: same fifteen alternatives with
independently allocated payloads. -/
inductive data where
  | none
  | boolean (b : Bool)
  | count (n : Nat)
  | integer (i : Int)
  | real (bits : Nat)
  | string (s : List Nat)
  | address (a : Nat)
  | subnet (a : Nat) (len : Nat)
  | port (num : Nat) (proto : protocol)
  | timestamp (ns : Int)
  | timespan (ns : Int)
  | enum_value (name : List Nat)
  | set (xs : List data)
  | table (xs : List (data × data))
  | vector (xs : List data)

/-- `variant_data::value.index()`: position of the held alternative in the
declaration order of the union. -/
def vtag : variant_data → Nat
  | .none => 0
  | .boolean _ => 1
  | .count _ => 2
  | .integer _ => 3
  | .real _ => 4
  | .string _ => 5
  | .address _ => 6
  | .subnet _ _ => 7
  | .port _ _ => 8
  | .timestamp _ => 9
  | .timespan _ => 10
  | .enum_value _ => 11
  | .set _ => 12
  | .table _ => 13
  | .vector _ => 14

/-- `data::get_tag()` as an index: position of the held alternative. -/
def dtag : data → Nat
  | .none => 0
  | .boolean _ => 1
  | .count _ => 2
  | .integer _ => 3
  | .real _ => 4
  | .string _ => 5
  | .address _ => 6
  | .subnet _ _ => 7
  | .port _ _ => 8
  | .timestamp _ => 9
  | .timespan _ => 10
  | .enum_value _ => 11
  | .set _ => 12
  | .table _ => 13
  | .vector _ => 14

/-! ### Order on view values

`operator<(const variant_data&, const variant_data&)` (variant_data.cc)
compares the variant indexes first and, only when both sides hold the same
alternative, visits the payloads with the payload's `<`. Container payloads
compare with `std::lexicographical_compare` (sets and vectors element-wise,
maps pair-wise with `std::pair`'s lexicographic `<`). -/

mutual

/-- Strict order on view values, `operator<(variant_data, variant_data)`. -/
def vlt : variant_data → variant_data → Bool
  | x, y =>
    if vtag x = vtag y then
      match x, y with
      | .none, .none => false
      | .boolean a, .boolean b => !a && b
      | .count a, .count b => a < b
      | .integer a, .integer b => a < b
      | .real a, .real b => realLt a b
      | .string a, .string b => bytesLt a b
      | .address a, .address b => a < b
      | .subnet a1 l1, .subnet a2 l2 => a1 < a2 || (a1 == a2 && l1 < l2)
      | .port n1 p1, .port n2 p2 => n1 < n2 || (n1 == n2 && protoIdx p1 < protoIdx p2)
      | .timestamp a, .timestamp b => a < b
      | .timespan a, .timespan b => a < b
      | .enum_value a, .enum_value b => bytesLt a b
      | .set xs, .set ys => vltList xs ys
      | .table xs, .table ys => vltPairs xs ys
      | .vector xs, .vector ys => vltList xs ys
      | _, _ => false
    else vtag x < vtag y
termination_by x y => sizeOf x + sizeOf y

/-- `std::lexicographical_compare` over element sequences with `vlt`. -/
def vltList : List variant_data → List variant_data → Bool
  | _, [] => false
  | [], _ :: _ => true
  | x :: xs, y :: ys =>
    if vlt x y then true else if vlt y x then false else vltList xs ys
termination_by xs ys => sizeOf xs + sizeOf ys

/-- `std::lexicographical_compare` over key/value sequences, each pair
compared with `std::pair`'s lexicographic `<`. -/
def vltPairs : List (variant_data × variant_data) → List (variant_data × variant_data) → Bool
  | _, [] => false
  | [], _ :: _ => true
  | (k1, v1) :: xs, (k2, v2) :: ys =>
    if vlt k1 k2 || (!vlt k2 k1 && vlt v1 v2) then true
    else if vlt k2 k1 || (!vlt k1 k2 && vlt v2 v1) then false
    else vltPairs xs ys
termination_by xs ys => sizeOf xs + sizeOf ys

end

/-! ### Equality

`visit_if_same_type` (variant_data.cc) applies the predicate to the two
payloads when both sides hold the same alternative and otherwise applies it to
the two type tags — for `eq_predicate` the latter yields `false`. The
`eq_predicate` dereferences container pointers, compares sequence containers
with the four-iterator `std::equal` (length check plus element-wise recursion)
and pairs field-wise. -/

mutual

/-- `operator==(variant_data, variant_data)` from variant_data.cc:
`visit_if_same_type` applies `eq_predicate` to the payloads when both sides
hold the same alternative and to the two tags — yielding `false` — otherwise. -/
def veq : variant_data → variant_data → Bool
  | x, y =>
    if vtag x = vtag y then
      match x, y with
      | .none, .none => true
      | .boolean a, .boolean b => a == b
      | .count a, .count b => a == b
      | .integer a, .integer b => a == b
      | .real a, .real b => realEq a b
      | .string a, .string b => a == b
      | .address a, .address b => a == b
      | .subnet a1 l1, .subnet a2 l2 => a1 == a2 && l1 == l2
      | .port n1 p1, .port n2 p2 => n1 == n2 && p1 == p2
      | .timestamp a, .timestamp b => a == b
      | .timespan a, .timespan b => a == b
      | .enum_value a, .enum_value b => a == b
      | .set xs, .set ys => veqList xs ys
      | .table xs, .table ys => veqPairs xs ys
      | .vector xs, .vector ys => veqList xs ys
      | _, _ => false
    else false

/-- Four-iterator `std::equal` over two element sequences. -/
def veqList : List variant_data → List variant_data → Bool
  | [], [] => true
  | x :: xs, y :: ys => veq x y && veqList xs ys
  | _, _ => false

/-- Four-iterator `std::equal` over two key/value sequences. -/
def veqPairs : List (variant_data × variant_data) → List (variant_data × variant_data) → Bool
  | [], [] => true
  | (k1, v1) :: xs, (k2, v2) :: ys => veq k1 k2 && veq v1 v2 && veqPairs xs ys
  | _, _ => false

end

mutual

/-- `operator==(const data&, const variant_data&)` from variant_data.cc:
cross-representation equality between an owning value and a view value
(`visit_if_same_type` with `eq_predicate`, which dereferences the view's
container pointers). -/
def deqv : data → variant_data → Bool
  | x, y =>
    if dtag x = vtag y then
      match x, y with
      | .none, .none => true
      | .boolean a, .boolean b => a == b
      | .count a, .count b => a == b
      | .integer a, .integer b => a == b
      | .real a, .real b => realEq a b
      | .string a, .string b => a == b
      | .address a, .address b => a == b
      | .subnet a1 l1, .subnet a2 l2 => a1 == a2 && l1 == l2
      | .port n1 p1, .port n2 p2 => n1 == n2 && p1 == p2
      | .timestamp a, .timestamp b => a == b
      | .timespan a, .timespan b => a == b
      | .enum_value a, .enum_value b => a == b
      | .set xs, .set ys => deqvList xs ys
      | .table xs, .table ys => deqvPairs xs ys
      | .vector xs, .vector ys => deqvList xs ys
      | _, _ => false
    else false

/-- Four-iterator `std::equal` across the two representations. -/
def deqvList : List data → List variant_data → Bool
  | [], [] => true
  | x :: xs, y :: ys => deqv x y && deqvList xs ys
  | _, _ => false

/-- Four-iterator `std::equal` across the two representations, pair-wise. -/
def deqvPairs : List (data × data) → List (variant_data × variant_data) → Bool
  | [], [] => true
  | (k1, v1) :: xs, (k2, v2) :: ys => deqv k1 k2 && deqv v1 v2 && deqvPairs xs ys
  | _, _ => false

end

mutual

/-- Strict order on owning values. Modelled from the spec: the value order is
defined first by tag index, then by payload natural order (the owning type's
`operator<` lives in data.cc, which is not among the staged sources; it is the
comparator of `broker::set` and `broker::table`). Mirrors `vlt`. -/
def dlt : data → data → Bool
  | x, y =>
    if dtag x = dtag y then
      match x, y with
      | .none, .none => false
      | .boolean a, .boolean b => !a && b
      | .count a, .count b => a < b
      | .integer a, .integer b => a < b
      | .real a, .real b => realLt a b
      | .string a, .string b => bytesLt a b
      | .address a, .address b => a < b
      | .subnet a1 l1, .subnet a2 l2 => a1 < a2 || (a1 == a2 && l1 < l2)
      | .port n1 p1, .port n2 p2 => n1 < n2 || (n1 == n2 && protoIdx p1 < protoIdx p2)
      | .timestamp a, .timestamp b => a < b
      | .timespan a, .timespan b => a < b
      | .enum_value a, .enum_value b => bytesLt a b
      | .set xs, .set ys => dltList xs ys
      | .table xs, .table ys => dltPairs xs ys
      | .vector xs, .vector ys => dltList xs ys
      | _, _ => false
    else dtag x < dtag y
termination_by x y => sizeOf x + sizeOf y

/-- Lexicographic comparison of owning element sequences. -/
def dltList : List data → List data → Bool
  | _, [] => false
  | [], _ :: _ => true
  | x :: xs, y :: ys =>
    if dlt x y then true else if dlt y x then false else dltList xs ys
termination_by xs ys => sizeOf xs + sizeOf ys

/-- Lexicographic comparison of owning key/value sequences. -/
def dltPairs : List (data × data) → List (data × data) → Bool
  | _, [] => false
  | [], _ :: _ => true
  | (k1, v1) :: xs, (k2, v2) :: ys =>
    if dlt k1 k2 || (!dlt k2 k1 && dlt v1 v2) then true
    else if dlt k2 k1 || (!dlt k1 k2 && dlt v2 v1) then false
    else dltPairs xs ys
termination_by xs ys => sizeOf xs + sizeOf ys

end

mutual

/-- Equality on owning values. Modelled from the spec: equality is structural
(the owning type's `operator==` lives in data.cc, not among the staged
sources). Mirrors `veq`. -/
def deq : data → data → Bool
  | x, y =>
    if dtag x = dtag y then
      match x, y with
      | .none, .none => true
      | .boolean a, .boolean b => a == b
      | .count a, .count b => a == b
      | .integer a, .integer b => a == b
      | .real a, .real b => realEq a b
      | .string a, .string b => a == b
      | .address a, .address b => a == b
      | .subnet a1 l1, .subnet a2 l2 => a1 == a2 && l1 == l2
      | .port n1 p1, .port n2 p2 => n1 == n2 && p1 == p2
      | .timestamp a, .timestamp b => a == b
      | .timespan a, .timespan b => a == b
      | .enum_value a, .enum_value b => a == b
      | .set xs, .set ys => deqList xs ys
      | .table xs, .table ys => deqPairs xs ys
      | .vector xs, .vector ys => deqList xs ys
      | _, _ => false
    else false

/-- Element-wise equality of owning element sequences. -/
def deqList : List data → List data → Bool
  | [], [] => true
  | x :: xs, y :: ys => deq x y && deqList xs ys
  | _, _ => false

/-- Element-wise equality of owning key/value sequences. -/
def deqPairs : List (data × data) → List (data × data) → Bool
  | [], [] => true
  | (k1, v1) :: xs, (k2, v2) :: ys => deq k1 k2 && deq v1 v2 && deqPairs xs ys
  | _, _ => false

end

/-! ### Conversion view → owning

`variant_data::to_data` (variant_data.cc) rebuilds each node as an owning
value: vectors by `emplace_back` in iteration order, sets and tables by
`emplace` into a fresh `std::set<data>` / `std::map<data, data>`, which
inserts at the position the comparator dictates and drops an element or key
that compares equivalent to one already present. -/

/-- `std::set<data>::emplace` on the sorted element sequence. -/
def set_insert (d : data) : List data → List data
  | [] => [d]
  | a :: tl =>
    if dlt d a then d :: a :: tl
    else if dlt a d then a :: set_insert d tl
    else a :: tl

/-- `std::map<data, data>::emplace` on the sorted key/value sequence
(no overwrite when the key is already present). -/
def map_insert (k v : data) : List (data × data) → List (data × data)
  | [] => [(k, v)]
  | (k0, v0) :: tl =>
    if dlt k k0 then (k, v) :: (k0, v0) :: tl
    else if dlt k0 k then (k0, v0) :: map_insert k v tl
    else (k0, v0) :: tl

mutual

/-- `variant_data::to_data` from variant_data.cc. -/
def to_data : variant_data → data
  | .none => .none
  | .boolean b => .boolean b
  | .count n => .count n
  | .integer i => .integer i
  | .real bits => .real bits
  | .string s => .string s
  | .address a => .address a
  | .subnet a len => .subnet a len
  | .port num proto => .port num proto
  | .timestamp ns => .timestamp ns
  | .timespan ns => .timespan ns
  | .enum_value name => .enum_value name
  | .set xs => .set (to_data_set xs [])
  | .table xs => .table (to_data_table xs [])
  | .vector xs => .vector (to_data_vec xs)

/-- The vector case: `emplace_back(x.to_data())` in iteration order. -/
def to_data_vec : List variant_data → List data
  | [] => []
  | x :: tl => to_data x :: to_data_vec tl

/-- The set case: `result.emplace(x.to_data())` for each element in iteration
order, starting from the empty `std::set<data>` (accumulated in `acc`). -/
def to_data_set : List variant_data → List data → List data
  | [], acc => acc
  | x :: tl, acc => to_data_set tl (set_insert (to_data x) acc)

/-- The table case: `result.emplace(key.to_data(), val.to_data())` for each
pair in iteration order, starting from the empty map. -/
def to_data_table : List (variant_data × variant_data) → List (data × data) → List (data × data)
  | [], acc => acc
  | (k, v) :: tl, acc => to_data_table tl (map_insert (to_data k) (to_data v) acc)

end

/-! ### Representation invariant

A `variant_data` produced by the decoder satisfies the C++ container
invariants: a `std::set` iterates in strictly ascending element order and a
`std::map` in strictly ascending key order (strict weak orders make the
ascending chain equivalent to pairwise ascent, which is the form used here).
`wf` additionally rules out NaN real payloads: a NaN breaks the strict weak
ordering contract of the comparator, so C++ gives set/table operations over
NaN payloads no meaning at all. -/

/-- Pairwise strict ascent of an element sequence under `vlt`. -/
def ascElems : List variant_data → Bool
  | [] => true
  | x :: tl => tl.all (fun y => vlt x y) && ascElems tl

/-- Pairwise strict ascent of the key sequence under `vlt`. -/
def ascKeys : List (variant_data × variant_data) → Bool
  | [] => true
  | (k, _) :: tl => tl.all (fun p => vlt k p.1) && ascKeys tl

mutual

/-- Well-formedness of a view value: containers are sorted as the C++
containers guarantee, and no real payload is NaN. -/
def wf : variant_data → Bool
  | .real bits => !realIsNaN bits
  | .set xs => wfList xs && ascElems xs
  | .table xs => wfPairs xs && ascKeys xs
  | .vector xs => wfList xs
  | _ => true

/-- All elements of a sequence are well-formed. -/
def wfList : List variant_data → Bool
  | [] => true
  | x :: tl => wf x && wfList tl

/-- All keys and values of a pair sequence are well-formed. -/
def wfPairs : List (variant_data × variant_data) → Bool
  | [] => true
  | (k, v) :: tl => wf k && wf v && wfPairs tl

end

/-- Pairwise strict ascent of an owning element sequence under `dlt`
(the invariant `std::set<data>` maintains). -/
def ascElemsD : List data → Bool
  | [] => true
  | x :: tl => tl.all (fun y => dlt x y) && ascElemsD tl

/-! ## Order lemmas

`dlt` is asymmetric; insertion of an element above everything present appends
at the end; hence `to_data` maps an ascending set body to the identical
element sequence. -/

theorem bytesLt_asymm : ∀ a b : List Nat, bytesLt a b = true → bytesLt b a = false
  | _ :: _, [], h => by simp [bytesLt] at h
  | [], [], h => by simp [bytesLt] at h
  | [], _ :: _, _ => by simp [bytesLt]
  | a :: as, b :: bs, h => by
    simp only [bytesLt] at h ⊢
    by_cases hab : a < b
    · have hba : ¬ b < a := by omega
      simp [hab, hba]
    · by_cases hba : b < a
      · simp [hab, hba] at h
      · simpa [hab, hba] using bytesLt_asymm as bs (by simpa [hab, hba] using h)

theorem dlt_tag_ne (x y : data) (ht : dtag x ≠ dtag y) :
    dlt x y = decide (dtag x < dtag y) := by
  unfold dlt
  rw [if_neg ht]

theorem realLt_asymm (a b : Nat) (h : realLt a b = true) : realLt b a = false := by
  simp only [realLt, Bool.and_eq_true, Bool.not_eq_true', decide_eq_true_eq] at h
  obtain ⟨⟨h1, h2⟩, h3⟩ := h
  simp only [realLt, h1, h2, Bool.not_false, Bool.true_and]
  simp only [decide_eq_false_iff_not]
  exact lt_asymm h3

mutual

theorem dlt_asymm : ∀ x y : data, dlt x y = true → dlt y x = false
  | x, y, h => by
    by_cases ht : dtag x = dtag y
    · cases x <;> cases y <;>
        first
          | (simp [dtag] at ht; done)
          | (simp [dlt, dtag] at h ⊢
             first
               | exact dltList_asymm _ _ h
               | exact dltPairs_asymm _ _ h
               | exact bytesLt_asymm _ _ h
               | exact realLt_asymm _ _ h
               | omega
               | simp_all)
          | simp [dlt, dtag] at h
    · rw [dlt_tag_ne x y ht] at h
      rw [dlt_tag_ne y x (fun e => ht e.symm)]
      simp at h ⊢
      omega
termination_by x y => sizeOf x + sizeOf y

theorem dltList_asymm : ∀ xs ys : List data, dltList xs ys = true → dltList ys xs = false
  | _ :: _, [], h => by simp [dltList] at h
  | [], [], h => by simp [dltList] at h
  | [], _ :: _, _ => by simp [dltList]
  | x :: xs, y :: ys, h => by
    simp only [dltList] at h ⊢
    by_cases hxy : dlt x y = true
    · simp [hxy, dlt_asymm x y hxy]
    · by_cases hyx : dlt y x = true
      · simp [hxy, hyx] at h
      · simpa [hxy, hyx] using dltList_asymm xs ys (by simpa [hxy, hyx] using h)
termination_by xs ys => sizeOf xs + sizeOf ys

theorem dltPairs_asymm :
    ∀ xs ys : List (data × data), dltPairs xs ys = true → dltPairs ys xs = false
  | _ :: _, [], h => by simp [dltPairs] at h
  | [], [], h => by simp [dltPairs] at h
  | [], _ :: _, _ => by simp [dltPairs]
  | (k1, v1) :: xs, (k2, v2) :: ys, h => by
    simp only [dltPairs] at h ⊢
    by_cases hk : dlt k1 k2 = true
    · simp [hk, dlt_asymm k1 k2 hk]
    · by_cases hk2 : dlt k2 k1 = true
      · simp [hk, hk2] at h
      · by_cases hv : dlt v1 v2 = true
        · simp [hk, hk2, hv, dlt_asymm v1 v2 hv]
        · by_cases hv2 : dlt v2 v1 = true
          · simp [hk, hk2, hv, hv2] at h
          · simpa [hk, hk2, hv, hv2] using
              dltPairs_asymm xs ys (by simpa [hk, hk2, hv, hv2] using h)
termination_by xs ys => sizeOf xs + sizeOf ys

end

theorem set_insert_big (d : data) :
    ∀ acc : List data, (∀ a ∈ acc, dlt a d = true) → set_insert d acc = acc ++ [d]
  | [], _ => rfl
  | a :: tl, h => by
    have ha : dlt a d = true := h a (by simp)
    have hda : dlt d a = false := dlt_asymm a d ha
    simp only [set_insert, hda, ha, if_true, if_false, Bool.false_eq_true]
    simp [set_insert_big d tl (fun b hb => h b (by simp [hb]))]

theorem map_insert_big (k v : data) :
    ∀ acc : List (data × data), (∀ p ∈ acc, dlt p.1 k = true) →
      map_insert k v acc = acc ++ [(k, v)]
  | [], _ => rfl
  | (k0, v0) :: tl, h => by
    have hk0 : dlt k0 k = true := h (k0, v0) (by simp)
    have hkk0 : dlt k k0 = false := dlt_asymm k0 k hk0
    simp only [map_insert, hkk0, hk0, if_true, if_false, Bool.false_eq_true]
    simp [map_insert_big k v tl (fun p hp => h p (by simp [hp]))]

/-- Pairwise strict ascent of an owning key sequence under `dlt`
(the invariant `std::map<data, data>` maintains). -/
def ascKeysD : List (data × data) → Bool
  | [] => true
  | (k, _) :: tl => tl.all (fun p => dlt k p.1) && ascKeysD tl

/-- Element-wise image of a pair sequence under `to_data`. -/
def to_data_pairs (xs : List (variant_data × variant_data)) : List (data × data) :=
  xs.map (fun p => (to_data p.1, to_data p.2))

theorem to_data_tag : ∀ x : variant_data, dtag (to_data x) = vtag x := by
  intro x
  cases x <;> rfl

theorem vlt_tag_ne (x y : variant_data) (ht : vtag x ≠ vtag y) :
    vlt x y = decide (vtag x < vtag y) := by
  unfold vlt
  rw [if_neg ht]

theorem deqv_tag_ne (x : data) (y : variant_data) (ht : dtag x ≠ vtag y) :
    deqv x y = false := by
  unfold deqv
  rw [if_neg ht]

theorem veq_tag_ne (x y : variant_data) (ht : vtag x ≠ vtag y) :
    veq x y = false := by
  unfold veq
  rw [if_neg ht]

theorem to_data_set_sorted :
    ∀ (xs : List variant_data) (acc : List data),
      ascElemsD (to_data_vec xs) = true →
      (∀ a ∈ acc, ∀ b ∈ to_data_vec xs, dlt a b = true) →
      to_data_set xs acc = acc ++ to_data_vec xs
  | [], acc, _, _ => by simp [to_data_set, to_data_vec]
  | x :: tl, acc, h1, h2 => by
    simp only [to_data_vec, ascElemsD, Bool.and_eq_true, List.all_eq_true] at h1
    obtain ⟨hx, htl⟩ := h1
    simp only [to_data_set]
    rw [set_insert_big (to_data x) acc
        (fun a ha => h2 a ha (to_data x) (by simp [to_data_vec]))]
    rw [to_data_set_sorted tl (acc ++ [to_data x]) htl ?hacc]
    · simp [to_data_vec]
    case hacc =>
      intro a ha b hb
      rcases List.mem_append.mp ha with ha | ha
      · exact h2 a ha b (by simp [to_data_vec, hb])
      · simp only [List.mem_singleton] at ha
        subst ha
        exact hx b hb

theorem to_data_pairs_cons (k v : variant_data) (tl : List (variant_data × variant_data)) :
    to_data_pairs ((k, v) :: tl) = (to_data k, to_data v) :: to_data_pairs tl := rfl

theorem to_data_table_sorted :
    ∀ (xs : List (variant_data × variant_data)) (acc : List (data × data)),
      ascKeysD (to_data_pairs xs) = true →
      (∀ p ∈ acc, ∀ q ∈ to_data_pairs xs, dlt p.1 q.1 = true) →
      to_data_table xs acc = acc ++ to_data_pairs xs
  | [], acc, _, _ => by simp [to_data_table, to_data_pairs]
  | (k, v) :: tl, acc, h1, h2 => by
    rw [to_data_pairs_cons] at h1 h2
    simp only [ascKeysD, Bool.and_eq_true, List.all_eq_true] at h1
    obtain ⟨hk, htl⟩ := h1
    simp only [to_data_table]
    rw [map_insert_big (to_data k) (to_data v) acc
        (fun p hp => h2 p hp (to_data k, to_data v) (List.mem_cons_self _ _))]
    rw [to_data_table_sorted tl (acc ++ [(to_data k, to_data v)]) htl ?hacc]
    · rw [to_data_pairs_cons]
      simp
    case hacc =>
      intro p hp q hq
      rcases List.mem_append.mp hp with hp | hp
      · exact h2 p hp q (List.mem_cons_of_mem _ hq)
      · simp only [List.mem_singleton] at hp
        subst hp
        exact hk q hq

/-! ### `to_data` preserves the value order

On well-formed values the conversion is order-preserving, so rebuilding a
sorted set or table by repeated insertion reproduces the element sequence
unchanged. -/

mutual

theorem tdlt : ∀ x y : variant_data, wf x = true → wf y = true →
    dlt (to_data x) (to_data y) = vlt x y
  | x, y, hx, hy => by
    by_cases ht : vtag x = vtag y
    · cases x <;> cases y <;> try (simp [vtag] at ht; done)
      all_goals try (simp [to_data, dlt, vlt, dtag, vtag]; done)
      · rename_i xs ys
        simp only [wf, Bool.and_eq_true] at hx hy
        simp only [to_data, dlt, vlt, dtag, vtag]
        rw [to_data_set_sorted xs [] (by rw [tAscList xs hx.1]; exact hx.2)
              (fun a ha => absurd ha (List.not_mem_nil a)),
            to_data_set_sorted ys [] (by rw [tAscList ys hy.1]; exact hy.2)
              (fun a ha => absurd ha (List.not_mem_nil a))]
        simp only [List.nil_append]
        exact tdltList xs ys hx.1 hy.1
      · rename_i xs ys
        simp only [wf, Bool.and_eq_true] at hx hy
        simp only [to_data, dlt, vlt, dtag, vtag]
        rw [to_data_table_sorted xs [] (by rw [tAscKeys xs hx.1]; exact hx.2)
              (fun p hp => absurd hp (List.not_mem_nil p)),
            to_data_table_sorted ys [] (by rw [tAscKeys ys hy.1]; exact hy.2)
              (fun p hp => absurd hp (List.not_mem_nil p))]
        simp only [List.nil_append]
        exact tdltPairs xs ys hx.1 hy.1
      · rename_i xs ys
        simp only [wf] at hx hy
        simp only [to_data, dlt, vlt, dtag, vtag]
        exact tdltList xs ys hx hy
    · rw [dlt_tag_ne _ _ (by rw [to_data_tag, to_data_tag]; exact ht),
        vlt_tag_ne x y ht]
      rw [to_data_tag, to_data_tag]
termination_by x y => sizeOf x + sizeOf y

theorem tdltList : ∀ xs ys : List variant_data, wfList xs = true → wfList ys = true →
    dltList (to_data_vec xs) (to_data_vec ys) = vltList xs ys
  | [], [], _, _ => by simp [to_data_vec, dltList, vltList]
  | [], _ :: _, _, _ => by simp [to_data_vec, dltList, vltList]
  | _ :: _, [], _, _ => by simp [to_data_vec, dltList, vltList]
  | x :: xs, y :: ys, h1, h2 => by
    simp only [wfList, Bool.and_eq_true] at h1 h2
    simp only [to_data_vec, dltList, vltList]
    rw [tdlt x y h1.1 h2.1, tdlt y x h2.1 h1.1, tdltList xs ys h1.2 h2.2]
termination_by xs ys => sizeOf xs + sizeOf ys

theorem tdltPairs : ∀ xs ys : List (variant_data × variant_data),
    wfPairs xs = true → wfPairs ys = true →
    dltPairs (to_data_pairs xs) (to_data_pairs ys) = vltPairs xs ys
  | [], [], _, _ => by simp [to_data_pairs, dltPairs, vltPairs]
  | [], _ :: _, _, _ => by simp [to_data_pairs, dltPairs, vltPairs]
  | _ :: _, [], _, _ => by simp [to_data_pairs, dltPairs, vltPairs]
  | (k1, v1) :: xs, (k2, v2) :: ys, h1, h2 => by
    simp only [wfPairs, Bool.and_eq_true] at h1 h2
    rw [to_data_pairs_cons, to_data_pairs_cons]
    simp only [dltPairs, vltPairs]
    rw [tdlt k1 k2 h1.1.1 h2.1.1, tdlt k2 k1 h2.1.1 h1.1.1,
      tdlt v1 v2 h1.1.2 h2.1.2, tdlt v2 v1 h2.1.2 h1.1.2,
      tdltPairs xs ys h1.2 h2.2]
termination_by xs ys => sizeOf xs + sizeOf ys

theorem tAllLt : ∀ (x : variant_data) (tl : List variant_data),
    wf x = true → wfList tl = true →
    ((to_data_vec tl).all (fun b => dlt (to_data x) b)) = tl.all (fun y => vlt x y)
  | _, [], _, _ => by simp [to_data_vec]
  | x, y :: tl, hx, h => by
    simp only [wfList, Bool.and_eq_true] at h
    simp only [to_data_vec, List.all_cons]
    rw [tdlt x y hx h.1, tAllLt x tl hx h.2]
termination_by x tl => sizeOf x + sizeOf tl

theorem tAscList : ∀ xs : List variant_data, wfList xs = true →
    ascElemsD (to_data_vec xs) = ascElems xs
  | [], _ => by simp [to_data_vec, ascElemsD, ascElems]
  | x :: tl, h => by
    simp only [wfList, Bool.and_eq_true] at h
    simp only [to_data_vec, ascElemsD, ascElems]
    rw [tAllLt x tl h.1 h.2, tAscList tl h.2]
termination_by xs => sizeOf xs

theorem tAllKeyLt : ∀ (k : variant_data) (tl : List (variant_data × variant_data)),
    wf k = true → wfPairs tl = true →
    ((to_data_pairs tl).all (fun p => dlt (to_data k) p.1)) = tl.all (fun p => vlt k p.1)
  | _, [], _, _ => by simp [to_data_pairs]
  | k, (k0, v0) :: tl, hk, h => by
    simp only [wfPairs, Bool.and_eq_true] at h
    rw [to_data_pairs_cons]
    simp only [List.all_cons]
    rw [tdlt k k0 hk h.1.1, tAllKeyLt k tl hk h.2]
termination_by k tl => sizeOf k + sizeOf tl

theorem tAscKeys : ∀ xs : List (variant_data × variant_data), wfPairs xs = true →
    ascKeysD (to_data_pairs xs) = ascKeys xs
  | [], _ => by simp [to_data_pairs, ascKeysD, ascKeys]
  | (k, v) :: tl, h => by
    simp only [wfPairs, Bool.and_eq_true] at h
    rw [to_data_pairs_cons]
    simp only [ascKeysD, ascKeys]
    rw [tAllKeyLt k tl h.1.1 h.2, tAscKeys tl h.2]
termination_by xs => sizeOf xs

end

/-! ### The conversion round-trip -/

mutual

theorem to_data_eq : ∀ x : variant_data, wf x = true → deqv (to_data x) x = true
  | x, hx => by
    cases x <;> try (simp [to_data, deqv, dtag, vtag]; done)
    case real bits =>
      simp only [wf, Bool.not_eq_true'] at hx
      simp [to_data, deqv, dtag, vtag, realEq, hx]
    case set xs =>
      simp only [wf, Bool.and_eq_true] at hx
      simp only [to_data, deqv, dtag, vtag]
      rw [to_data_set_sorted xs [] (by rw [tAscList xs hx.1]; exact hx.2)
            (fun a ha => absurd ha (List.not_mem_nil a))]
      simp only [List.nil_append]
      exact to_data_eq_list xs hx.1
    case table xs =>
      simp only [wf, Bool.and_eq_true] at hx
      simp only [to_data, deqv, dtag, vtag]
      rw [to_data_table_sorted xs [] (by rw [tAscKeys xs hx.1]; exact hx.2)
            (fun p hp => absurd hp (List.not_mem_nil p))]
      simp only [List.nil_append]
      exact to_data_eq_pairs xs hx.1
    case vector xs =>
      simp only [wf] at hx
      simp only [to_data, deqv, dtag, vtag]
      exact to_data_eq_list xs hx

theorem to_data_eq_list : ∀ xs : List variant_data, wfList xs = true →
    deqvList (to_data_vec xs) xs = true
  | [], _ => by simp [to_data_vec, deqvList]
  | x :: tl, h => by
    simp only [wfList, Bool.and_eq_true] at h
    simp only [to_data_vec, deqvList, Bool.and_eq_true]
    exact ⟨to_data_eq x h.1, to_data_eq_list tl h.2⟩

theorem to_data_eq_pairs : ∀ xs : List (variant_data × variant_data), wfPairs xs = true →
    deqvPairs (to_data_pairs xs) xs = true
  | [], _ => by simp [to_data_pairs, deqvPairs]
  | (k, v) :: tl, h => by
    simp only [wfPairs, Bool.and_eq_true] at h
    rw [to_data_pairs_cons]
    simp only [deqvPairs, Bool.and_eq_true]
    exact ⟨⟨to_data_eq k h.1.1, to_data_eq v h.1.2⟩, to_data_eq_pairs tl h.2⟩

end

/-- Sequence equality across representations holds exactly when the lists have
equal length and element-wise equal entries. -/
theorem deqvList_iff_forall : ∀ (xs : List data) (ys : List variant_data),
    deqvList xs ys = true ↔ List.Forall₂ (fun a b => deqv a b = true) xs ys
  | [], [] => by simp [deqvList]
  | [], _ :: _ => by
    simp only [deqvList, Bool.false_eq_true, false_iff]
    intro h
    cases h
  | _ :: _, [] => by
    simp only [deqvList, Bool.false_eq_true, false_iff]
    intro h
    cases h
  | x :: xs, y :: ys => by
    simp [deqvList, deqvList_iff_forall xs ys, List.forall₂_cons, Bool.and_eq_true]

/-! ## Claim C4 -/

/-- C4 counterexample: the claim fails as stated. For the view value holding
the quiet-NaN real payload, `to_data` reproduces the payload bit for bit, yet
`operator==(data, variant_data)` compares the two doubles with the IEEE-754
`==`, under which NaN differs from itself — so the converted value does not
compare equal to its source. -/
theorem to_data_nan_counterexample :
    deqv (to_data (variant_data.real quietNaN)) (variant_data.real quietNaN) = false := by
  decide

/-- C4 (amended): for every well-formed view value — containers sorted as the
C++ containers guarantee and no NaN real payload — `variant_data::to_data`
produces an owning value that compares equal to its source under
`operator==(data, variant_data)`; and that cross-representation equality is
structural: values holding different alternatives are unequal, and container
bodies are equal exactly when they have equal lengths and pairwise-equal
elements. -/
theorem to_data_roundtrip :
    (∀ v : variant_data, wf v = true → deqv (to_data v) v = true) ∧
    (∀ (x : data) (y : variant_data), dtag x ≠ vtag y → deqv x y = false) ∧
    (∀ (xs : List data) (ys : List variant_data),
      deqvList xs ys = true ↔ List.Forall₂ (fun a b => deqv a b = true) xs ys) ∧
    (∀ (xs : List data) (ys : List variant_data),
      deqv (data.vector xs) (variant_data.vector ys) = deqvList xs ys) ∧
    (∀ (xs : List data) (ys : List variant_data),
      deqv (data.set xs) (variant_data.set ys) = deqvList xs ys) := by
  refine ⟨to_data_eq, deqv_tag_ne, deqvList_iff_forall, ?_, ?_⟩
  · intro xs ys
    simp [deqv, dtag, vtag]
  · intro xs ys
    simp [deqv, dtag, vtag]

/-- C4 witness: the amended theorem applied at a concrete well-formed value. -/
theorem to_data_roundtrip_witness :
    wf (variant_data.vector [.integer 3, .string [104, 105], .boolean true]) = true ∧
    deqv (to_data (variant_data.vector [.integer 3, .string [104, 105], .boolean true]))
      (variant_data.vector [.integer 3, .string [104, 105], .boolean true]) = true :=
  ⟨by decide, to_data_roundtrip.1 _ (by decide)⟩

/-! ## Claim C5

The payload order of a byte sequence is the mathematical lexicographic order;
the payload order of a container is the mathematical lexicographic sequence
order over the element order (at a strict weak order the recursion steps over
order-equivalent, not syntactically equal, elements — `seqLtSpec` states this
with an explicit witness position). -/

theorem bytesLt_iff_lex : ∀ a b : List Nat, bytesLt a b = true ↔ List.Lex (· < ·) a b
  | [], [] => by
    simp only [bytesLt, Bool.false_eq_true, false_iff]
    exact List.Lex.not_nil_right _ _
  | _ :: _, [] => by
    simp only [bytesLt, Bool.false_eq_true, false_iff]
    exact List.Lex.not_nil_right _ _
  | [], b :: bs => by
    simp only [bytesLt, true_iff]
    exact List.Lex.nil
  | a :: as, b :: bs => by
    simp only [bytesLt]
    by_cases hab : a < b
    · simp only [hab, if_true, true_iff]
      exact List.Lex.rel hab
    · by_cases hba : b < a
      · simp only [hab, hba, if_true, if_false, Bool.false_eq_true, false_iff]
        intro h
        cases h with
        | rel h1 => exact hab h1
        | cons h1 => exact lt_irrefl a hba
      · have hab2 : a = b := by omega
        subst hab2
        simp only [hab, hba, if_false]
        rw [bytesLt_iff_lex as bs]
        exact (List.Lex.cons_iff).symm

/-- Order-equivalence of two view values under the strict order `vlt`. -/
def vequiv (x y : variant_data) : Prop := vlt x y = false ∧ vlt y x = false

/-- Mathematical specification of the lexicographic sequence order over the
element order `vlt`: there is a position `n` below which the two sequences are
element-wise order-equivalent, and at which either the left sequence ends
while the right continues, or both continue with strictly ordered heads. -/
def seqLtSpec (xs ys : List variant_data) : Prop :=
  ∃ n : Nat,
    List.Forall₂ vequiv (xs.take n) (ys.take n) ∧
    ((xs.drop n = [] ∧ ys.drop n ≠ []) ∨
      (∃ a b ta tb, xs.drop n = a :: ta ∧ ys.drop n = b :: tb ∧ vlt a b = true))

theorem vltList_iff_spec : ∀ xs ys : List variant_data,
    vltList xs ys = true ↔ seqLtSpec xs ys
  | [], [] => by
    simp only [vltList, Bool.false_eq_true, false_iff]
    rintro ⟨n, hf, hbr⟩
    rcases hbr with ⟨h1, h2⟩ | ⟨a, b, ta, tb, h1, h2, h3⟩
    · exact h2 (by simp)
    · simp at h2
  | [], y :: ys => by
    simp only [vltList, true_iff]
    exact ⟨0, by simp, Or.inl ⟨by simp, by simp⟩⟩
  | x :: xs, [] => by
    simp only [vltList, Bool.false_eq_true, false_iff]
    rintro ⟨n, hf, hbr⟩
    rcases hbr with ⟨h1, h2⟩ | ⟨a, b, ta, tb, h1, h2, h3⟩
    · exact h2 (by simp)
    · simp at h2
  | x :: xs, y :: ys => by
    by_cases hxy : vlt x y = true
    · simp only [vltList, hxy, if_true, true_iff]
      exact ⟨0, by simp, Or.inr ⟨x, y, xs, ys, by simp, by simp, hxy⟩⟩
    · have hxy0 : vlt x y = false := by revert hxy; cases vlt x y <;> simp
      by_cases hyx : vlt y x = true
      · simp only [vltList, hxy0, hyx, if_true, if_false, Bool.false_eq_true, false_iff]
        rintro ⟨n, hf, hbr⟩
        cases n with
        | zero =>
          rcases hbr with ⟨h1, h2⟩ | ⟨a, b, ta, tb, h1, h2, h3⟩
          · simp at h1
          · simp only [List.drop_zero] at h1 h2
            injection h1 with e1 e2
            injection h2 with e3 e4
            subst e1; subst e3
            exact hxy h3
        | succ m =>
          simp only [List.take_succ_cons] at hf
          cases hf with
          | cons h1 hs => exact absurd h1.2 (by simp [hyx])
      · have hyx0 : vlt y x = false := by revert hyx; cases vlt y x <;> simp
        simp only [vltList, hxy0, hyx0, Bool.false_eq_true, if_false]
        rw [vltList_iff_spec xs ys]
        constructor
        · rintro ⟨n, hf, hbr⟩
          refine ⟨n + 1, ?_, ?_⟩
          · simp only [List.take_succ_cons]
            exact List.Forall₂.cons ⟨hxy0, hyx0⟩ hf
          · simpa only [List.drop_succ_cons] using hbr
        · rintro ⟨n, hf, hbr⟩
          cases n with
          | zero =>
            rcases hbr with ⟨h1, h2⟩ | ⟨a, b, ta, tb, h1, h2, h3⟩
            · simp at h1
            · simp only [List.drop_zero] at h1 h2
              injection h1 with e1 e2
              injection h2 with e3 e4
              subst e1; subst e3
              exact absurd h3 hxy
          | succ m =>
            simp only [List.take_succ_cons, List.drop_succ_cons] at hf hbr
            cases hf with
            | cons h1 hs => exact ⟨m, hs, hbr⟩

/-- C5: the value order compares by variant index first — values holding
different alternatives order exactly by index — and for equal alternatives by
the payload natural order: strings lexicographically as byte sequences,
containers lexicographically as the stored sequences under the element (or
pair) order; equality likewise discriminates on the alternative first.
(Container capacity does not exist in the model: the stored sequence is the
whole state of a container, so equality cannot observe capacity.) -/
theorem vlt_order_characterization :
    (∀ x y : variant_data, vtag x ≠ vtag y → (vlt x y = true ↔ vtag x < vtag y)) ∧
    (∀ a b : List Nat, vlt (.string a) (.string b) = bytesLt a b) ∧
    (∀ a b : List Nat, bytesLt a b = true ↔ List.Lex (· < ·) a b) ∧
    (∀ xs ys : List variant_data, vlt (.vector xs) (.vector ys) = vltList xs ys) ∧
    (∀ xs ys : List variant_data, vlt (.set xs) (.set ys) = vltList xs ys) ∧
    (∀ xs ys : List (variant_data × variant_data),
      vlt (.table xs) (.table ys) = vltPairs xs ys) ∧
    (∀ xs ys : List variant_data, vltList xs ys = true ↔ seqLtSpec xs ys) ∧
    (∀ x y : variant_data, vtag x ≠ vtag y → veq x y = false) := by
  refine ⟨?_, ?_, bytesLt_iff_lex, ?_, ?_, ?_, vltList_iff_spec, veq_tag_ne⟩
  · intro x y ht
    rw [vlt_tag_ne x y ht]
    simp
  · intro a b
    simp [vlt, vtag]
  · intro xs ys
    simp [vlt, vtag]
  · intro xs ys
    simp [vlt, vtag]
  · intro xs ys
    simp [vlt, vtag]

/-- C5 witness: the characterization applied at concrete values of different
alternatives and at concrete payloads. -/
theorem vlt_order_characterization_witness :
    vtag (variant_data.count 7) ≠ vtag (variant_data.string [97]) ∧
    (vlt (variant_data.count 7) (variant_data.string [97]) = true ↔
      vtag (variant_data.count 7) < vtag (variant_data.string [97])) :=
  ⟨by decide, vlt_order_characterization.1 _ _ (by decide)⟩

/-! ## Claim C9: `variant_data::parse_shallow` -/

/-- Outcome of `format::bin::v1::decode`: success flag and final read
position. The decoder itself (format/bin.hh) is not among the staged sources,
so `parse_shallow` is stated over an arbitrary decoder outcome; positions are
byte offsets into the input buffer. -/
structure DecodeResult where
  ok : Bool
  pos : Nat

/-- `variant_data::parse_shallow` from variant_data.cc: run the decoder over
the byte range and report failure unless the decoder succeeded with its final
position exactly at the end of the range. -/
def parse_shallow (decode : Nat → Nat → DecodeResult) (first last : Nat) : Bool × Nat :=
  let r := decode first last
  if !r.ok || r.pos != last then (false, r.pos) else (true, r.pos)

/-- C9: `parse_shallow` succeeds exactly when the decoder succeeds and the
returned position equals the end of the buffer; in particular a successful
decode that leaves trailing bytes is reported as failure, and the position of
the decoder is passed through unchanged. -/
theorem parse_shallow_exact (decode : Nat → Nat → DecodeResult) (first last : Nat) :
    ((parse_shallow decode first last).1 = true ↔
      (decode first last).ok = true ∧ (decode first last).pos = last) ∧
    ((decode first last).ok = true → (decode first last).pos ≠ last →
      (parse_shallow decode first last).1 = false) ∧
    (parse_shallow decode first last).2 = (decode first last).pos := by
  rcases hd : decode first last with ⟨ok, pos⟩
  cases ok <;> by_cases hpos : pos = last <;>
    simp [parse_shallow, hd, hpos]

/-- C9 witness: a decoder that stops at the start of the buffer fails the
whole-buffer check. -/
theorem parse_shallow_exact_witness :
    (DecodeResult.mk true 0).ok = true ∧ (0 : Nat) ≠ 3 ∧
    (parse_shallow (fun first _ => ⟨true, first⟩) 0 3).1 = false :=
  ⟨rfl, by decide,
    (parse_shallow_exact (fun first _ => ⟨true, first⟩) 0 3).2.1 rfl (by decide)⟩

/-! ## Claim C10: the Python Zeek event binding -/

/-- Modelled from the spec: the Zeek message type tag
(`broker::zeek::Message::Type`); the binding only discriminates `Event`
against every other tag (`broker/zeek.hh` is not among the staged sources). -/
inductive MessageType where
  | Invalid
  | Event
  | LogCreate
  | LogWrite
  | IdentifierUpdate
  | Batch
deriving DecidableEq

/-- Abstract view of a wrapped `broker::zeek::Event` exactly as the binding
lambdas of bindings/python/zeek.cpp observe it: `Message::type(ev.as_data())`,
`ev.valid()`, `ev.name()`, `ev.ts()` (as the seconds value the binding
converts to), and `ev.args()`. The `Event` class itself lives in
broker/zeek.hh, which is not among the staged sources. -/
structure EventObj where
  msgType : MessageType
  isValid : Bool
  evName : List Nat
  evTs : Option Int
  evArgs : List data

/-- The exception the binding raises (`std::invalid_argument`). -/
inductive PyError where
  | invalidArgument
deriving DecidableEq

/-- The `valid` lambda of `init_zeek`: `false` — not an exception — when the
wrapped data is not an `Event` message, the event's own validity otherwise. -/
def py_event_valid (ev : EventObj) : Bool :=
  if ev.msgType ≠ .Event then false else ev.isValid

/-- The `name` lambda of `init_zeek`. -/
def py_event_name (ev : EventObj) : Except PyError (List Nat) :=
  if ev.msgType ≠ .Event then .error .invalidArgument
  else if !ev.isValid then .error .invalidArgument
  else .ok ev.evName

/-- The `timestamp` lambda of `init_zeek`. -/
def py_event_timestamp (ev : EventObj) : Except PyError (Option Int) :=
  if ev.msgType ≠ .Event then .error .invalidArgument
  else if !ev.isValid then .error .invalidArgument
  else .ok ev.evTs

/-- The `args` lambda of `init_zeek`. -/
def py_event_args (ev : EventObj) : Except PyError (List data) :=
  if ev.msgType ≠ .Event then .error .invalidArgument
  else if !ev.isValid then .error .invalidArgument
  else .ok ev.evArgs

/-- C10: `valid()` answers `false` without raising when the wrapped data is
not an Event message; each accessor raises `std::invalid_argument` exactly
when the wrapped data is not an Event message or the event is invalid, and on
a valid Event returns the name, optional timestamp and argument vector. -/
theorem zeek_event_binding_guards :
    (∀ ev : EventObj, ev.msgType ≠ .Event → py_event_valid ev = false) ∧
    (∀ ev : EventObj, py_event_valid ev = true ↔
      ev.msgType = .Event ∧ ev.isValid = true) ∧
    (∀ ev : EventObj, py_event_name ev = .error .invalidArgument ↔
      ¬(ev.msgType = .Event ∧ ev.isValid = true)) ∧
    (∀ ev : EventObj, py_event_timestamp ev = .error .invalidArgument ↔
      ¬(ev.msgType = .Event ∧ ev.isValid = true)) ∧
    (∀ ev : EventObj, py_event_args ev = .error .invalidArgument ↔
      ¬(ev.msgType = .Event ∧ ev.isValid = true)) ∧
    (∀ ev : EventObj, ev.msgType = .Event → ev.isValid = true →
      py_event_name ev = .ok ev.evName ∧
      py_event_timestamp ev = .ok ev.evTs ∧
      py_event_args ev = .ok ev.evArgs) := by
  refine ⟨?_, ?_, ?_, ?_, ?_, ?_⟩ <;> intro ev <;>
    by_cases ht : ev.msgType = MessageType.Event <;>
    by_cases hv : ev.isValid = true <;>
    simp_all [py_event_valid, py_event_name, py_event_timestamp, py_event_args]

/-- C10 witness: the guards applied to a concrete non-Event wrapper and a
concrete valid Event. -/
theorem zeek_event_binding_guards_witness :
    (EventObj.mk .LogCreate true [] none []).msgType ≠ MessageType.Event ∧
    py_event_valid (EventObj.mk .LogCreate true [] none []) = false ∧
    py_event_name (EventObj.mk .Event true [110] none []) = .ok [110] :=
  ⟨by decide, zeek_event_binding_guards.1 _ (by decide),
    ((zeek_event_binding_guards.2.2.2.2.2 (EventObj.mk .Event true [110] none [])
      rfl rfl).1)⟩

/-! ## Claim C8: the store backend contract -/

/-- Store backend errors surfaced by the contract under test. -/
inductive StoreError where
  | no_such_key
  | type_clash
deriving DecidableEq

/-- Key lookup in the backend's map (structural equality on keys). Modelled
from the spec: the backend implementations (memory_backend.cc and friends)
are not among the staged sources; tests/cpp/backend.cc exercises the
contract. -/
def store_find : List (data × data) → data → Option data
  | [], _ => none
  | (k, v) :: tl, key => if deq k key then some v else store_find tl key

/-- Replace the value stored under a present key. -/
def store_update : List (data × data) → data → data → List (data × data)
  | [], _, _ => []
  | (k, v) :: tl, key, nv =>
    if deq k key then (k, nv) :: tl else (k, v) :: store_update tl key nv

/-- Modelled from the spec: the numeric combination behind `add` — defined on
two values of the same numeric alternative, an operation on mismatched value
types signals `type_clash`. 64-bit counter arithmetic wraps. -/
def data_add : data → data → Except StoreError data
  | .integer a, .integer b => .ok (.integer (a + b))
  | .count a, .count b => .ok (.count ((a + b) % 2 ^ 64))
  | _, _ => .error .type_clash

/-- Modelled from the spec: the numeric combination behind `remove`. -/
def data_sub : data → data → Except StoreError data
  | .integer a, .integer b => .ok (.integer (a - b))
  | .count a, .count b => .ok (.count ((a + 2 ^ 64 - b % 2 ^ 64) % 2 ^ 64))
  | _, _ => .error .type_clash

/-- `add(key, value, expiry)` of the store backend contract: mutate the map in
place on success, otherwise report the error and leave the map untouched.
Modelled from the spec. -/
def store_add (st : List (data × data)) (key delta : data) :
    List (data × data) × Option StoreError :=
  match store_find st key with
  | none => (st, some .no_such_key)
  | some v =>
    match data_add v delta with
    | .error e => (st, some e)
    | .ok nv => (store_update st key nv, none)

/-- `remove(key, value, expiry)` of the store backend contract. Modelled from
the spec. -/
def store_remove (st : List (data × data)) (key delta : data) :
    List (data × data) × Option StoreError :=
  match store_find st key with
  | none => (st, some .no_such_key)
  | some v =>
    match data_sub v delta with
    | .error e => (st, some e)
    | .ok nv => (store_update st key nv, none)

theorem data_sub_tag_ne (v d : data) (ht : dtag v ≠ dtag d) :
    data_sub v d = .error .type_clash := by
  cases v <;> cases d <;> first | (simp [dtag] at ht; done) | simp [data_sub]

/-- C8: `add` and `remove` on an absent key report `no_such_key` and leave the
store unchanged; `remove` on a present key whose stored value's alternative
differs from the given value's alternative reports `type_clash` and leaves
the store — in particular the stored value — unchanged; on matching integer
values `remove` subtracts in place. -/
theorem store_backend_errors :
    (∀ (st : List (data × data)) (k d : data), store_find st k = none →
      store_add st k d = (st, some .no_such_key)) ∧
    (∀ (st : List (data × data)) (k d : data), store_find st k = none →
      store_remove st k d = (st, some .no_such_key)) ∧
    (∀ (st : List (data × data)) (k d v : data), store_find st k = some v →
      dtag v ≠ dtag d → store_remove st k d = (st, some .type_clash)) ∧
    (∀ (st : List (data × data)) (k : data) (a b : Int),
      store_find st k = some (.integer a) →
      store_remove st k (.integer b) = (store_update st k (.integer (a - b)), none)) := by
  refine ⟨?_, ?_, ?_, ?_⟩
  · intro st k d h
    simp [store_add, h]
  · intro st k d h
    simp [store_remove, h]
  · intro st k d v h ht
    simp [store_remove, h, data_sub_tag_ne v d ht]
  · intro st k a b h
    simp [store_remove, h, data_sub]

/-- C8 witness: the contract applied to the store of the `add/remove` test —
the key `"foo"` absent, then present holding the integer 42 while the
`remove` argument is the string `"bar"`. -/
theorem store_backend_errors_witness :
    store_find [] (data.string [102, 111, 111]) = none ∧
    store_find [(data.string [102, 111, 111], data.integer 42)]
      (data.string [102, 111, 111]) = some (data.integer 42) ∧
    dtag (data.integer 42) ≠ dtag (data.string [98, 97, 114]) ∧
    store_add [] (data.string [102, 111, 111]) (data.integer 42) =
      ([], some .no_such_key) ∧
    store_remove [(data.string [102, 111, 111], data.integer 42)]
      (data.string [102, 111, 111]) (data.string [98, 97, 114]) =
      ([(data.string [102, 111, 111], data.integer 42)], some .type_clash) :=
  ⟨rfl, rfl, by decide,
    store_backend_errors.1 [] _ _ rfl,
    store_backend_errors.2.2.1 [(data.string [102, 111, 111], data.integer 42)]
      (data.string [102, 111, 111]) (data.string [98, 97, 114]) (data.integer 42)
      rfl (by decide)⟩

/-! ## Topics and filters

A topic is a `/`-separated string; a filter is a set of topic prefixes kept in
canonical form. The topic and filter machinery (topic.hh, filter_type.hh) is
not among the staged sources, so these definitions are modelled from the
spec (§3 Topic, §4.B). -/

/-- A topic, as its character sequence. -/
abbrev Topic := List Char

/-- String literal to topic. -/
def toT (s : String) : Topic := s.toList

/-- Modelled from the spec: entry `p` covers topic `t` iff `t == p` or `t`
begins with `p + "/"`. -/
def coversOne (p t : Topic) : Bool := p == t || (p ++ ['/']).isPrefixOf t

/-- Modelled from the spec: `t` is covered by filter `F` iff some entry of
`F` covers it. -/
def covers (F : List Topic) (t : Topic) : Bool := F.any (fun p => coversOne p t)

/-- Lexicographic order on topics, for the sorted canonical form. -/
def topicLt : Topic → Topic → Bool
  | _, [] => false
  | [], _ :: _ => true
  | a :: as, b :: bs => if a < b then true else if b < a then false else topicLt as bs

/-- Insert a topic at its sorted position. -/
def filterInsertSorted (t : Topic) : List Topic → List Topic
  | [] => [t]
  | p :: tl => if topicLt t p then t :: p :: tl else p :: filterInsertSorted t tl

/-- Modelled from the spec (§4.B): filter insertion — if the new topic is
covered by an existing entry the filter is unchanged; otherwise the new topic
is inserted at its sorted position and any entries it covers are removed. -/
def filterExtend (F : List Topic) (t : Topic) : List Topic :=
  if F.any (fun p => coversOne p t) then F
  else filterInsertSorted t (F.filter (fun p => !coversOne t p))

/-- Modelled from the spec: merging filters is set union with
canonicalization — every entry of `G` is inserted into `F`. -/
def filterUnion (F G : List Topic) : List Topic := G.foldl filterExtend F

/-- Modelled from the spec: `endpoint::peer_subscriptions()` — the canonical
union of the filters received from all peers. -/
def peer_subscriptions (peerFilters : List (List Topic)) : List Topic :=
  peerFilters.foldl filterUnion []

/-- The prefix-cover relation is transitive: covering on `/` boundaries
composes. -/
theorem coversOne_trans (p q t : Topic) (h1 : coversOne p q = true)
    (h2 : coversOne q t = true) : coversOne p t = true := by
  simp only [coversOne, Bool.or_eq_true, beq_iff_eq, List.isPrefixOf_iff_prefix] at h1 h2 ⊢
  rcases h1 with h1 | h1
  · subst h1
    exact h2
  · rcases h2 with h2 | h2
    · subst h2
      right
      exact h1
    · right
      exact h1.trans ((List.prefix_append q ['/']).trans h2)

theorem mem_filterInsertSorted (t0 : Topic) :
    ∀ (F : List Topic) (p : Topic), p ∈ filterInsertSorted t0 F ↔ p = t0 ∨ p ∈ F
  | [], p => by simp [filterInsertSorted]
  | q :: tl, p => by
    simp only [filterInsertSorted]
    by_cases h : topicLt t0 q = true
    · simp [h, List.mem_cons]
    · simp only [h, if_false, Bool.false_eq_true, List.mem_cons,
        mem_filterInsertSorted t0 tl p]
      tauto

theorem covers_filterInsertSorted (t0 : Topic) :
    ∀ (F : List Topic) (t : Topic),
      covers (filterInsertSorted t0 F) t = (coversOne t0 t || covers F t)
  | [], t => by simp [filterInsertSorted, covers]
  | p :: tl, t => by
    simp only [filterInsertSorted]
    by_cases h : topicLt t0 p = true
    · simp [h, covers, List.any_cons]
    · simp only [h, if_false, Bool.false_eq_true, covers, List.any_cons]
      have := covers_filterInsertSorted t0 tl t
      simp only [covers] at this
      rw [this]
      cases coversOne t0 t <;> cases coversOne p t <;> simp

/-- Inserting a topic adds exactly its own cover set to the filter's cover
set. -/
theorem covers_filterExtend (F : List Topic) (t0 t : Topic) :
    covers (filterExtend F t0) t = (covers F t || coversOne t0 t) := by
  unfold filterExtend
  by_cases hc : F.any (fun p => coversOne p t0) = true
  · simp only [hc, if_true]
    by_cases hct : coversOne t0 t = true
    · simp only [hct, Bool.or_true]
      rcases List.any_eq_true.mp hc with ⟨p, hp, hpt0⟩
      exact List.any_eq_true.mpr ⟨p, hp, coversOne_trans p t0 t hpt0 hct⟩
    · simp only [hct]
      cases h : covers F t <;> simp
  · rw [if_neg hc]
    rw [covers_filterInsertSorted]
    by_cases hct : coversOne t0 t = true
    · simp only [hct, Bool.true_or, Bool.or_true]
    · have hct0 : coversOne t0 t = false := by
        revert hct
        cases coversOne t0 t <;> simp
      simp only [hct0, Bool.false_or, Bool.or_false]
      rw [Bool.eq_iff_iff]
      simp only [covers, List.any_eq_true]
      constructor
      · rintro ⟨p, hp, hpt⟩
        exact ⟨p, (List.mem_filter.mp hp).1, hpt⟩
      · rintro ⟨p, hp, hpt⟩
        refine ⟨p, List.mem_filter.mpr ⟨hp, ?_⟩, hpt⟩
        by_cases h0 : coversOne t0 p = true
        · exact absurd (coversOne_trans t0 p t h0 hpt) (by simp [hct0])
        · revert h0
          cases coversOne t0 p <;> simp

/-- A filter in canonical form: no entry covers another (distinct) entry. -/
def noCover (F : List Topic) : Prop :=
  ∀ p ∈ F, ∀ q ∈ F, p ≠ q → coversOne p q = false

theorem noCover_filterExtend (F : List Topic) (t0 : Topic) (h : noCover F) :
    noCover (filterExtend F t0) := by
  unfold filterExtend
  by_cases hc : F.any (fun p => coversOne p t0) = true
  · simpa only [hc, if_true] using h
  · rw [if_neg hc]
    intro p hp q hq hne
    rw [mem_filterInsertSorted] at hp hq
    rcases hp with hp | hp <;> rcases hq with hq | hq
    · exact absurd (hp.trans hq.symm) hne
    · rw [hp]
      rcases List.mem_filter.mp hq with ⟨hqF, hq0⟩
      simpa using hq0
    · rw [hq]
      rcases List.mem_filter.mp hp with ⟨hpF, _⟩
      by_cases hcv : coversOne p t0 = true
      · exact absurd (List.any_eq_true.mpr ⟨p, hpF, hcv⟩) hc
      · revert hcv
        cases coversOne p t0 <;> simp
    · exact h p (List.mem_filter.mp hp).1 q (List.mem_filter.mp hq).1 hne

theorem noCover_foldl_extend :
    ∀ (ts : List Topic) (F : List Topic), noCover F → noCover (ts.foldl filterExtend F)
  | [], _, h => h
  | t :: ts, F, h => noCover_foldl_extend ts _ (noCover_filterExtend F t h)

theorem noCover_foldl_union :
    ∀ (fs : List (List Topic)) (F : List Topic), noCover F →
      noCover (fs.foldl filterUnion F)
  | [], _, h => h
  | G :: fs, F, h => noCover_foldl_union fs _ (noCover_foldl_extend G F h)

theorem covers_foldl_extend :
    ∀ (ts : List Topic) (F : List Topic) (t : Topic),
      covers (ts.foldl filterExtend F) t = (covers F t || covers ts t)
  | [], F, t => by simp [covers]
  | t0 :: ts, F, t => by
    simp only [List.foldl_cons]
    rw [covers_foldl_extend ts _ t, covers_filterExtend]
    simp only [covers, List.any_cons]
    cases coversOne t0 t <;> cases F.any (fun p => coversOne p t) <;> simp

/-- Merging filters preserves the union of the cover sets exactly. -/
theorem covers_filterUnion (F G : List Topic) (t : Topic) :
    covers (filterUnion F G) t = (covers F t || covers G t) :=
  covers_foldl_extend G F t

/-- C6: `peer_subscriptions()` is the canonical union of the inbound peer
filters — no entry of the result is covered by another (distinct) entry, and
in the triangle scenario the union of `{"zeek/events"}`, owned by one peer,
with `{"zeek/events/errors"}`, owned by the other, is exactly
`{"zeek/events"}`. -/
theorem peer_subscriptions_canonical :
    (∀ fs : List (List Topic), ∀ p ∈ peer_subscriptions fs,
      ∀ q ∈ peer_subscriptions fs, p ≠ q → coversOne p q = false) ∧
    peer_subscriptions [[toT "zeek/events"], [toT "zeek/events/errors"]] =
      [toT "zeek/events"] := by
  constructor
  · intro fs
    exact noCover_foldl_union fs [] (by intro p hp; simp at hp)
  · decide

/-- C6 witness: the canonical-form statement applied to a concrete pair of
incomparable inbound filters. -/
theorem peer_subscriptions_canonical_witness :
    toT "a" ∈ peer_subscriptions [[toT "a"], [toT "b"]] ∧
    toT "b" ∈ peer_subscriptions [[toT "a"], [toT "b"]] ∧
    toT "a" ≠ toT "b" ∧
    coversOne (toT "a") (toT "b") = false :=
  ⟨by decide, by decide, by decide,
    peer_subscriptions_canonical.1 [[toT "a"], [toT "b"]] _ (by decide) _ (by decide)
      (by decide)⟩

/-! ## Prefix routing (C1)

Modelled from the spec (§4.D dispatch, §8.5): the routing engine itself is
exercised by integration.test.cc but its implementation is not among the
staged sources. The model is the spec's star/tree dispatch: a message
published at `src` is delivered to every local subscriber of `src` whose
filter covers the topic, and forwarded to every peer of `src` whose
(aggregate local) filter covers the topic, where it is delivered to that
peer's covering local subscribers. -/

/-- A published message: `(topic, value)`. -/
structure Msg where
  topic : Topic
  val : data

/-- A local subscriber: its filter and the messages delivered so far, in
order. -/
structure Sub where
  filter : List Topic
  received : List Msg

/-- An endpoint: its local subscribers. -/
structure EP where
  subs : List Sub

/-- A network: endpoints (by index) and undirected peering links. -/
structure Net where
  eps : List EP
  links : List (Nat × Nat)

/-- Whether endpoints `i` and `j` are peered. -/
def peered (net : Net) (i j : Nat) : Bool :=
  net.links.any (fun l => (l.1 == i && l.2 == j) || (l.1 == j && l.2 == i))

/-- Aggregate local filter of an endpoint: the canonical union of its local
subscribers' filters — what the endpoint announces to its peers. -/
def aggFilter (ep : EP) : List Topic :=
  (ep.subs.map Sub.filter).foldl filterUnion []

/-- Deliver a message to one subscriber: append it iff the filter covers the
topic. -/
def deliverSub (m : Msg) (s : Sub) : Sub :=
  if covers s.filter m.topic then { s with received := s.received ++ [m] } else s

/-- Deliver a message to every covering local subscriber of an endpoint. -/
def deliverEP (m : Msg) (ep : EP) : EP :=
  { subs := ep.subs.map (deliverSub m) }

/-- Endpoint `j` sees a message published at `src` iff it is the source, or a
peer of the source whose aggregate filter covers the topic. -/
def epSees (net : Net) (src j : Nat) (ep : EP) (m : Msg) : Bool :=
  j == src || (peered net src j && covers (aggFilter ep) m.topic)

/-- Walk the endpoint list, delivering at each endpoint that sees the
message; `j0` is the index of the first endpoint of the segment. -/
def deliverAt (net : Net) (src : Nat) (m : Msg) : Nat → List EP → List EP
  | _, [] => []
  | j, ep :: tl =>
    (if epSees net src j ep m then deliverEP m ep else ep) ::
      deliverAt net src m (j + 1) tl

/-- Dispatch of one published message. -/
def publish1 (net : Net) (src : Nat) (m : Msg) : Net :=
  { net with eps := deliverAt net src m 0 net.eps }

/-- Publish a sequence of messages from one source, in order. -/
def publishAll (net : Net) (src : Nat) : List Msg → Net
  | [] => net
  | m :: ms => publishAll (publish1 net src m) src ms

theorem deliverAt_getElem :
    ∀ (eps : List EP) (net : Net) (src : Nat) (m : Msg) (j0 j : Nat),
      (deliverAt net src m j0 eps)[j]? =
        (eps[j]?).map (fun ep => if epSees net src (j0 + j) ep m then deliverEP m ep else ep)
  | [], _, _, _, _, j => by simp [deliverAt]
  | ep :: tl, net, src, m, j0, 0 => by simp [deliverAt]
  | ep :: tl, net, src, m, j0, j + 1 => by
    simp only [deliverAt, List.getElem?_cons_succ]
    rw [deliverAt_getElem tl net src m (j0 + 1) j]
    have harith : j0 + 1 + j = j0 + (j + 1) := by omega
    rw [harith]

theorem covers_agg_foldl :
    ∀ (Fs : List (List Topic)) (F0 : List Topic) (t : Topic),
      covers (Fs.foldl filterUnion F0) t = (covers F0 t || Fs.any (fun F => covers F t))
  | [], F0, t => by simp
  | G :: Fs, F0, t => by
    simp only [List.foldl_cons, List.any_cons]
    rw [covers_agg_foldl Fs _ t, covers_filterUnion]
    cases covers F0 t <;> cases covers G t <;> simp

/-- A topic covered by one local subscriber's filter is covered by the
endpoint's aggregate filter. -/
theorem covers_aggFilter_of_sub (ep : EP) (s : Sub) (hs : s ∈ ep.subs) (t : Topic)
    (h : covers s.filter t = true) : covers (aggFilter ep) t = true := by
  unfold aggFilter
  rw [covers_agg_foldl, Bool.or_eq_true]
  exact Or.inr (List.any_eq_true.mpr ⟨s.filter, List.mem_map.mpr ⟨s, hs, rfl⟩, h⟩)

theorem publish1_sub (net : Net) (src j k : Nat) (ep : EP) (s : Sub) (m : Msg)
    (hep : net.eps[j]? = some ep) (hs : ep.subs[k]? = some s)
    (hreach : j = src ∨ peered net src j = true) :
    ∃ ep2, (publish1 net src m).eps[j]? = some ep2 ∧
      ep2.subs[k]? = some (if covers s.filter m.topic
        then { s with received := s.received ++ [m] } else s) := by
  have hidx := deliverAt_getElem net.eps net src m 0 j
  rw [hep] at hidx
  simp only [Option.map_some', Nat.zero_add] at hidx
  by_cases hsee : epSees net src j ep m = true
  · rw [if_pos hsee] at hidx
    refine ⟨deliverEP m ep, hidx, ?_⟩
    simp only [deliverEP, List.getElem?_map, hs, Option.map_some']
    simp [deliverSub]
  · rw [if_neg hsee] at hidx
    refine ⟨ep, hidx, ?_⟩
    rw [hs]
    have hcov : covers s.filter m.topic = false := by
      by_contra hc
      have hc2 : covers s.filter m.topic = true := by
        revert hc
        cases covers s.filter m.topic <;> simp
      apply hsee
      unfold epSees
      rcases hreach with h | h
      · simp [h]
      · have hagg := covers_aggFilter_of_sub ep s (List.getElem?_mem hs) _ hc2
        simp [h, hagg]
    simp [hcov]

theorem publishAll_sub :
    ∀ (msgs : List Msg) (net : Net) (src j k : Nat) (ep : EP) (s : Sub),
      net.eps[j]? = some ep → ep.subs[k]? = some s →
      (j = src ∨ peered net src j = true) →
      ∃ ep2 s2, (publishAll net src msgs).eps[j]? = some ep2 ∧
        ep2.subs[k]? = some s2 ∧ s2.filter = s.filter ∧
        s2.received = s.received ++ msgs.filter (fun m => covers s.filter m.topic)
  | [], net, src, j, k, ep, s, hep, hs, _ => ⟨ep, s, hep, hs, rfl, by simp⟩
  | m :: ms, net, src, j, k, ep, s, hep, hs, hr => by
    obtain ⟨ep2, h1, h2⟩ := publish1_sub net src j k ep s m hep hs hr
    have hr2 : j = src ∨ peered (publish1 net src m) src j = true := by
      rcases hr with h | h
      · exact Or.inl h
      · exact Or.inr h
    by_cases hcov : covers s.filter m.topic = true
    · rw [if_pos hcov] at h2
      obtain ⟨ep3, s3, g1, g2, g3, g4⟩ :=
        publishAll_sub ms (publish1 net src m) src j k ep2 _ h1 h2 hr2
      refine ⟨ep3, s3, g1, g2, g3, ?_⟩
      rw [g4]
      simp [List.filter_cons, hcov]
    · rw [if_neg hcov] at h2
      obtain ⟨ep3, s3, g1, g2, g3, g4⟩ :=
        publishAll_sub ms (publish1 net src m) src j k ep2 s h1 h2 hr2
      refine ⟨ep3, s3, g1, g2, g3, ?_⟩
      rw [g4]
      simp [List.filter_cons, hcov]

/-- Byte sequence of a string payload. -/
def toBytes (s : String) : List Nat := s.toList.map Char.toNat

/-- The S1 triangle before publishing: `M` (index 0, hub, no local
subscribers), `V` (index 1, filter `{"zeek/events"}`), `E` (index 2, filter
`{"zeek/events/errors"}`); `V` and `E` each peered with `M`. -/
def triangleNet : Net :=
  { eps := [ { subs := [] },
             { subs := [ { filter := [toT "zeek/events"], received := [] } ] },
             { subs := [ { filter := [toT "zeek/events/errors"], received := [] } ] } ],
    links := [(1, 0), (2, 0)] }

/-- The four messages `M` publishes, in order. -/
def triangleMsgs : List Msg :=
  [ ⟨toT "zeek/events/errors", .string (toBytes "oops")⟩,
    ⟨toT "zeek/events/errors", .string (toBytes "sorry!")⟩,
    ⟨toT "zeek/events/data", .integer 123⟩,
    ⟨toT "zeek/events/data", .integer 456⟩ ]

/-- C1: in the triangle scenario, after `M` publishes the four messages, `M`
(with no local subscriber) delivers nothing locally, `V` receives all four in
publish order and `E` receives exactly the two `zeek/events/errors` messages
in publish order; in general, a subscriber with filter `F` on the source
endpoint or on an endpoint peered with the source receives exactly the
published messages whose topic `F` covers, in publish order. -/
theorem prefix_routing :
    (∀ (msgs : List Msg) (net : Net) (src j k : Nat) (ep : EP) (s : Sub),
      net.eps[j]? = some ep → ep.subs[k]? = some s →
      (j = src ∨ peered net src j = true) →
      ∃ ep2 s2, (publishAll net src msgs).eps[j]? = some ep2 ∧
        ep2.subs[k]? = some s2 ∧ s2.filter = s.filter ∧
        s2.received = s.received ++ msgs.filter (fun m => covers s.filter m.topic)) ∧
    publishAll triangleNet 0 triangleMsgs =
      { eps := [ { subs := [] },
                 { subs := [ { filter := [toT "zeek/events"],
                               received := triangleMsgs } ] },
                 { subs := [ { filter := [toT "zeek/events/errors"],
                               received := [ ⟨toT "zeek/events/errors", .string (toBytes "oops")⟩,
                                             ⟨toT "zeek/events/errors", .string (toBytes "sorry!")⟩ ] } ] } ],
        links := [(1, 0), (2, 0)] } :=
  ⟨publishAll_sub, by rfl⟩

/-- C1 witness: the general statement applied to `V` in the triangle. -/
theorem prefix_routing_witness :
    triangleNet.eps[1]? = some { subs := [ { filter := [toT "zeek/events"], received := [] } ] } ∧
    (1 = 0 ∨ peered triangleNet 0 1 = true) ∧
    ∃ ep2 s2, (publishAll triangleNet 0 triangleMsgs).eps[1]? = some ep2 ∧
      ep2.subs[0]? = some s2 ∧ s2.filter = [toT "zeek/events"] ∧
      s2.received = [] ++ triangleMsgs.filter (fun m => covers [toT "zeek/events"] m.topic) :=
  ⟨rfl, Or.inr (by decide),
    prefix_routing.1 triangleMsgs triangleNet 0 1 0
      { subs := [ { filter := [toT "zeek/events"], received := [] } ] }
      { filter := [toT "zeek/events"], received := [] }
      rfl rfl (Or.inr (by decide))⟩

/-! ## Unpeering (C2)

Modelled from the spec (§4.E Unpeer, §4.G): the peering engine is exercised
by integration.test.cc, its implementation is not among the staged sources. -/

/-- Network address `(host, port)`. -/
abbrev Addr := String × Nat

/-- The status and error codes the scenarios observe on the status bus. -/
inductive EventCode where
  | peer_added
  | peer_removed
  | peer_lost
  | peer_invalid
  | peer_unavailable
deriving DecidableEq

/-- Append an event to the status log of endpoint `i`. -/
def appendAt : List (List EventCode) → Nat → EventCode → List (List EventCode)
  | [], _, _ => []
  | l :: tl, 0, e => (l ++ [e]) :: tl
  | l :: tl, i + 1, e => l :: appendAt tl i e

/-- Peering world: per-endpoint status logs and the live peering records
`(initiator, responder, address the initiator used)`. -/
structure World where
  logs : List (List EventCode)
  peerings : List (Nat × Nat × Addr)

/-- The live peering record an endpoint holds for an address, if any. -/
def findPeering : List (Nat × Nat × Addr) → Nat → Addr → Option Nat
  | [], _, _ => none
  | (i, r, a) :: tl, v, addr =>
    if i = v ∧ a = addr then some r else findPeering tl v addr

/-- Drop the peering record an endpoint holds for an address. -/
def removePeering : List (Nat × Nat × Addr) → Nat → Addr → List (Nat × Nat × Addr)
  | [], _, _ => []
  | (i, r, a) :: tl, v, addr =>
    if i = v ∧ a = addr then tl else (i, r, a) :: removePeering tl v addr

/-- Modelled from the spec: `unpeer(host, port)` — with a live peering record
for the address: remove it, emit `peer_removed` on the caller and `peer_lost`
on the remote side; without one: emit the error `peer_invalid` on the caller
and leave no peer record. -/
def unpeer (w : World) (v : Nat) (addr : Addr) : World :=
  match findPeering w.peerings v addr with
  | some r =>
    { logs := appendAt (appendAt w.logs v .peer_removed) r .peer_lost,
      peerings := removePeering w.peerings v addr }
  | none => { w with logs := appendAt w.logs v .peer_invalid }

theorem appendAt_getElem_self :
    ∀ (ls : List (List EventCode)) (i : Nat) (e : EventCode),
      (appendAt ls i e)[i]? = (ls[i]?).map (fun l => l ++ [e])
  | [], i, e => by simp [appendAt]
  | l :: tl, 0, e => by simp [appendAt]
  | l :: tl, i + 1, e => by simp [appendAt, appendAt_getElem_self tl i e]

theorem appendAt_getElem_ne :
    ∀ (ls : List (List EventCode)) (i j : Nat) (e : EventCode), j ≠ i →
      (appendAt ls i e)[j]? = ls[j]?
  | [], _, _, _, _ => by simp [appendAt]
  | l :: tl, 0, 0, e, h => absurd rfl h
  | l :: tl, 0, j + 1, e, h => by simp [appendAt]
  | l :: tl, i + 1, 0, e, h => by simp [appendAt]
  | l :: tl, i + 1, j + 1, e, h => by
    simp only [appendAt, List.getElem?_cons_succ]
    exact appendAt_getElem_ne tl i j e (fun hc => h (by omega))

/-- C2: unpeering a live peering removes its record, emits `peer_removed` on
the caller and `peer_lost` on the remote side and nothing on any third
endpoint; unpeering an address without a live record — a repeated unpeer or a
never-peered address — emits only the error `peer_invalid` on the caller and
leaves the peer records unchanged. The concrete conjuncts replay scenario S2
on the triangle. -/
theorem unpeer_events :
    (∀ (w : World) (v : Nat) (addr : Addr) (r : Nat),
      findPeering w.peerings v addr = some r → v ≠ r →
      (unpeer w v addr).peerings = removePeering w.peerings v addr ∧
      (unpeer w v addr).logs[v]? = (w.logs[v]?).map (fun l => l ++ [.peer_removed]) ∧
      (unpeer w v addr).logs[r]? = (w.logs[r]?).map (fun l => l ++ [.peer_lost]) ∧
      (∀ j, j ≠ v → j ≠ r → (unpeer w v addr).logs[j]? = w.logs[j]?)) ∧
    (∀ (w : World) (v : Nat) (addr : Addr),
      findPeering w.peerings v addr = none →
      (unpeer w v addr).peerings = w.peerings ∧
      (unpeer w v addr).logs[v]? = (w.logs[v]?).map (fun l => l ++ [.peer_invalid]) ∧
      (∀ j, j ≠ v → (unpeer w v addr).logs[j]? = w.logs[j]?)) ∧
    (unpeer { logs := [[], [], []],
              peerings := [(1, 0, ("mercury", 4040)), (2, 0, ("mercury", 4040))] }
        1 ("mercury", 4040) =
      { logs := [[.peer_lost], [.peer_removed], []],
        peerings := [(2, 0, ("mercury", 4040))] }) ∧
    (unpeer { logs := [[.peer_lost], [.peer_removed], []],
              peerings := [(2, 0, ("mercury", 4040))] } 1 ("mercury", 4040) =
      { logs := [[.peer_lost], [.peer_removed, .peer_invalid], []],
        peerings := [(2, 0, ("mercury", 4040))] }) ∧
    (unpeer { logs := [[.peer_lost], [.peer_removed, .peer_invalid], []],
              peerings := [(2, 0, ("mercury", 4040))] } 1 ("sun", 123) =
      { logs := [[.peer_lost], [.peer_removed, .peer_invalid, .peer_invalid], []],
        peerings := [(2, 0, ("mercury", 4040))] }) := by
  refine ⟨?_, ?_, rfl, rfl, rfl⟩
  · intro w v addr r hf hvr
    unfold unpeer
    rw [hf]
    refine ⟨rfl, ?_, ?_, ?_⟩
    · rw [appendAt_getElem_ne _ r v _ hvr, appendAt_getElem_self]
    · rw [appendAt_getElem_self, appendAt_getElem_ne _ v r _ (fun h => hvr h.symm)]
    · intro j hjv hjr
      rw [appendAt_getElem_ne _ r j _ hjr, appendAt_getElem_ne _ v j _ hjv]
  · intro w v addr hf
    unfold unpeer
    rw [hf]
    exact ⟨rfl, appendAt_getElem_self _ _ _, fun j hjv => appendAt_getElem_ne _ v j _ hjv⟩

/-- The S2 world right after the triangle peering of S1. -/
def s2World : World :=
  { logs := [[], [], []],
    peerings := [(1, 0, ("mercury", 4040)), (2, 0, ("mercury", 4040))] }

/-- C2 witness: the live-peering branch applied to the S2 world. -/
theorem unpeer_events_witness :
    findPeering s2World.peerings 1 ("mercury", 4040) = some 0 ∧
    (1 : Nat) ≠ 0 ∧
    (unpeer s2World 1 ("mercury", 4040)).logs[2]? = s2World.logs[2]? :=
  ⟨rfl, by decide,
    (unpeer_events.1 s2World 1 ("mercury", 4040) 0 rfl (by decide)).2.2.2 2
      (by decide) (by decide)⟩

/-! ## Connection retry (C3)

Modelled from the spec (§4.E Retry): integration.test.cc exercises the retry
loop, whose implementation is not among the staged sources. -/

/-- One retry loop over a list of connect-attempt outcomes (`false` = connect
failed, the session sleeps and retries; `true` = connect succeeded and the
handshake completes). Each failed attempt emits the error `peer_unavailable`
on the initiator; the successful handshake emits `peer_added` on both sides
and ends the loop. Returns the initiator's and the responder's status log. -/
def retryRun : List Bool → List EventCode × List EventCode
  | [] => ([], [])
  | true :: _ => ([.peer_added], [.peer_added])
  | false :: rest => (.peer_unavailable :: (retryRun rest).1, (retryRun rest).2)

theorem retryRun_replicate :
    ∀ k : Nat, retryRun (List.replicate k false ++ [true]) =
      (List.replicate k .peer_unavailable ++ [.peer_added], [.peer_added])
  | 0 => rfl
  | k + 1 => by
    rw [List.replicate_succ, List.cons_append]
    show (EventCode.peer_unavailable :: (retryRun (List.replicate k false ++ [true])).1,
          (retryRun (List.replicate k false ++ [true])).2) = _
    rw [retryRun_replicate k]
    simp [List.replicate_succ]

theorem replicate_append_getElem_zero (k : Nat) (h : 1 ≤ k) :
    (List.replicate k EventCode.peer_unavailable ++ [EventCode.peer_added])[0]? =
      some EventCode.peer_unavailable := by
  cases k with
  | zero => omega
  | succ m => simp [List.replicate_succ]

theorem replicate_append_getElem_last :
    ∀ k : Nat, (List.replicate k EventCode.peer_unavailable ++ [EventCode.peer_added])[k]? =
      some EventCode.peer_added
  | 0 => rfl
  | k + 1 => by simp [List.replicate_succ, replicate_append_getElem_last k]

/-- C3: when `k` connect attempts fail before one succeeds, the initiator's
status log is one `peer_unavailable` per failed attempt followed by
`peer_added` — so for `k ≥ 1` a `peer_unavailable` occurs at a strictly
earlier position than a `peer_added` — and the responder's status log is
exactly `peer_added`. -/
theorem connection_retry_events :
    (∀ k : Nat, retryRun (List.replicate k false ++ [true]) =
      (List.replicate k .peer_unavailable ++ [.peer_added], [.peer_added])) ∧
    (∀ k : Nat, 1 ≤ k →
      ∃ i j : Nat, i < j ∧
        (retryRun (List.replicate k false ++ [true])).1[i]? = some .peer_unavailable ∧
        (retryRun (List.replicate k false ++ [true])).1[j]? = some .peer_added) := by
  refine ⟨retryRun_replicate, ?_⟩
  intro k hk
  refine ⟨0, k, hk, ?_, ?_⟩
  · rw [retryRun_replicate]
    exact replicate_append_getElem_zero k hk
  · rw [retryRun_replicate]
    exact replicate_append_getElem_last k

/-- C3 witness: two failed attempts, then success. -/
theorem connection_retry_events_witness :
    (1 : Nat) ≤ 2 ∧
    ∃ i j : Nat, i < j ∧
      (retryRun (List.replicate 2 false ++ [true])).1[i]? = some .peer_unavailable ∧
      (retryRun (List.replicate 2 false ++ [true])).1[j]? = some .peer_added :=
  ⟨by decide, connection_retry_events.2 2 (by decide)⟩

/-! ## The subscriber queue's flare discipline (C7)

From src/subscriber.cc. The queue state visible to the flare discipline is
the `ready_` flag, the number of bytes in the flare pipe (`fire` writes one,
`extinguish` drains all) and the buffer's available count. Each step below is
one critical section of the code (the mutex `mtx_` serializes them) or one
buffer operation, so an arbitrary interleaving is an arbitrary list of
steps. -/

/-- Queue state: `ready_`, the flare's pipe content, `buf_->available()`. -/
structure QueueState where
  ready : Bool
  flare : Nat
  avail : Nat
deriving DecidableEq

/-- Atomic steps:
* `push` — the producer makes one more item available;
* `wakeup` — `on_producer_wakeup` (lines 45-51): fire the flare only when
  `ready_` is not already set;
* `drain n` — `pull` takes up to `n` items out of the buffer (line 106);
* `recheck` — the tail of `pull` (lines 108-114): under the mutex,
  extinguish only if `ready_` is set and the buffer is still empty;
* `close` — `extinguish()` as called from `on_complete`/`on_error`
  (lines 81-87, 97-102). -/
inductive QStep where
  | push
  | wakeup
  | drain (n : Nat)
  | recheck
  | close

/-- One atomic step of the queue. -/
def qstep : QueueState → QStep → QueueState
  | s, .push => { s with avail := s.avail + 1 }
  | s, .wakeup => if s.ready then s else { ready := true, flare := s.flare + 1, avail := s.avail }
  | s, .drain n => { s with avail := s.avail - n }
  | s, .recheck =>
    if s.ready ∧ s.avail = 0 then { ready := false, flare := 0, avail := s.avail } else s
  | s, .close => if s.ready then { ready := false, flare := 0, avail := s.avail } else s

/-- Run a sequence of steps. -/
def qrun : QueueState → List QStep → QueueState
  | s, [] => s
  | s, st :: tl => qrun (qstep s st) tl

/-- The initial state: flag clear, flare extinguished, buffer empty. -/
def qinit : QueueState := ⟨false, 0, 0⟩

theorem qstep_inv (s : QueueState) (st : QStep)
    (h : s.flare = if s.ready then 1 else 0) :
    (qstep s st).flare = if (qstep s st).ready then 1 else 0 := by
  cases st with
  | push => simpa using h
  | wakeup =>
    simp only [qstep]
    split
    · next hr => rw [h, if_pos hr]
    · next hr =>
      simp only [Bool.not_eq_true] at hr
      rw [hr] at h
      simp only [Bool.false_eq_true, if_false] at h
      simp [h]
  | drain n => simpa using h
  | recheck =>
    simp only [qstep]
    split
    · simp
    · exact h
  | close =>
    simp only [qstep]
    split
    · simp
    · next hr =>
      simp only [Bool.not_eq_true] at hr
      rw [hr] at h
      simpa using h

theorem qrun_inv :
    ∀ (l : List QStep) (s : QueueState), s.flare = (if s.ready then 1 else 0) →
      (qrun s l).flare = if (qrun s l).ready then 1 else 0
  | [], _, h => h
  | st :: tl, s, h => qrun_inv tl (qstep s st) (qstep_inv s st h)

/-- C7: in every reachable state the flare is armed — holds exactly one byte —
iff the `ready_` flag is set (so the flare never holds more than one byte:
arming is idempotent); `on_producer_wakeup` on a state whose flag is already
set does nothing; and the `pull` tail's re-check under the mutex leaves the
state — in particular an armed flare — untouched whenever the buffer is
non-empty, so a wake signalled concurrently with draining is never lost. -/
theorem flare_discipline :
    (∀ l : List QStep, (qrun qinit l).flare = if (qrun qinit l).ready then 1 else 0) ∧
    (∀ l : List QStep, (qrun qinit l).flare ≤ 1) ∧
    (∀ s : QueueState, s.ready = true → qstep s .wakeup = s) ∧
    (∀ s : QueueState, 0 < s.avail → qstep s .recheck = s) := by
  refine ⟨fun l => qrun_inv l qinit rfl, ?_, ?_, ?_⟩
  · intro l
    rw [qrun_inv l qinit rfl]
    by_cases h : (qrun qinit l).ready = true <;> simp [h]
  · intro s h
    simp [qstep, h]
  · intro s h
    simp only [qstep]
    rw [if_neg (by omega)]

/-- C7 witness: the idempotence and the non-empty re-check applied at
concrete states reached after a push and a producer wakeup. -/
theorem flare_discipline_witness :
    (QueueState.mk true 1 1).ready = true ∧
    qstep (QueueState.mk true 1 1) .wakeup = QueueState.mk true 1 1 ∧
    0 < (QueueState.mk true 1 1).avail ∧
    qstep (QueueState.mk true 1 1) .recheck = QueueState.mk true 1 1 :=
  ⟨rfl, flare_discipline.2.2.1 _ rfl, by decide,
    flare_discipline.2.2.2 _ (by decide)⟩

end Broker
